import Mathlib

/-!
Verification of the text-extraction heuristics of the LinkedCV repository
(`src/app/page.tsx`): the about-blob segmenter `parseAbout`, the trait
deriver `deriveTraits`, and the achievement extractor `extractStats`.

Strings are modelled as `List Char` (JavaScript strings are sequences of
UTF-16 code units; every character appearing in the keyword tables and in
the inputs of interest is a single code unit, so a code-point list is a
faithful model).  Each JavaScript regular expression used by the source is
translated into an explicit deterministic scanner; the word-boundary
assertion `\b`, the greedy/lazy quantifiers and the `matchAll` advancement
rule are modelled explicitly where they are observable.
-/

set_option maxRecDepth 100000

abbrev Str := List Char

/-- Converts a Lean string literal to the `List Char` model. -/
def str (s : String) : Str := s.toList

/-- JavaScript `\s` / `trim` whitespace class (the code points that can
occur in practice; the exotic Unicode space separators behave the same). -/
def isWS (c : Char) : Bool :=
  c = ' ' || c = '\t' || c = '\n' || c = '\r' || c = '\x0b' || c = '\x0c' ||
  c = ' ' || c = Char.ofNat 0xFEFF || c = Char.ofNat 0x2028 || c = Char.ofNat 0x2029

/-- JavaScript `\w` word-character class `[A-Za-z0-9_]`. -/
def isWordChar (c : Char) : Bool := c.isAlphanum || c = '_'

/-- ASCII lower-casing, as `String.prototype.toLowerCase` acts on the
ASCII range (no character of the keyword tables is outside it). -/
def asciiLower (c : Char) : Char :=
  match c with
  | 'A' => 'a' | 'B' => 'b' | 'C' => 'c' | 'D' => 'd' | 'E' => 'e'
  | 'F' => 'f' | 'G' => 'g' | 'H' => 'h' | 'I' => 'i' | 'J' => 'j'
  | 'K' => 'k' | 'L' => 'l' | 'M' => 'm' | 'N' => 'n' | 'O' => 'o'
  | 'P' => 'p' | 'Q' => 'q' | 'R' => 'r' | 'S' => 's' | 'T' => 't'
  | 'U' => 'u' | 'V' => 'v' | 'W' => 'w' | 'X' => 'x' | 'Y' => 'y'
  | 'Z' => 'z'
  | c => c

/-- ASCII upper-casing, as `String.prototype.toUpperCase` on ASCII. -/
def asciiUpper (c : Char) : Char :=
  if 'a' ≤ c ∧ c ≤ 'z' then Char.ofNat (c.toNat - 32) else c

def lowerStr (s : Str) : Str := s.map asciiLower

/-- Boolean prefix test. -/
def isPrefOf : Str → Str → Bool
  | [], _ => true
  | _ :: _, [] => false
  | a :: as, b :: bs => a = b && isPrefOf as bs

/-- Boolean substring test (JavaScript `/pat/.test(s)` for a literal `pat`). -/
def containsSub : Str → Str → Bool
  | pat, [] => isPrefOf pat []
  | pat, s@(_ :: r) => isPrefOf pat s || containsSub pat r

/-- Index of the first occurrence of a substring (length of the string when
absent); used only to state order-of-occurrence properties. -/
def subIdx : Str → Str → Nat
  | _, [] => 0
  | pat, s@(_ :: r) => if isPrefOf pat s then 0 else subIdx pat r + 1

/-- `String.prototype.trim`. -/
def jsTrim (s : Str) : Str :=
  (((s.dropWhile isWS).reverse).dropWhile isWS).reverse

/-! ### The about-blob segmenter `parseAbout` -/

structure AboutSegments where
  intro : Str
  highlights : List Str
  closing : Str
deriving DecidableEq, Repr

/-- The two recognized bullet glyphs `•` and `·`. -/
def isGlyph (c : Char) : Bool := c = '•' || c = '·'

/-- `text.split(/\n{2,}/)`: split at each maximal run of two or more
newlines.  `cur` is the reversed current piece; fuel makes the recursion
structural (callers pass the length of the input, which suffices because
every step consumes at least one character). -/
def splitNLF : Nat → Str → Str → List Str
  | 0, s, cur => [cur.reverse ++ s]
  | _ + 1, [], cur => [cur.reverse]
  | fuel + 1, c :: rest, cur =>
      if c = '\n' ∧ rest.head? = some '\n' then
        cur.reverse :: splitNLF fuel (rest.dropWhile (fun d => d = '\n')) []
      else splitNLF fuel rest (c :: cur)

def splitNN (s : Str) : List Str := splitNLF s.length s []

/-- `rest.match(/[•·][^•·]+/g)`: each chunk is a glyph followed by a
maximal nonempty run of non-glyph characters; a glyph directly followed by
another glyph (or the end) yields no chunk. -/
def bulletChunksF : Nat → Str → List Str
  | 0, _ => []
  | _ + 1, [] => []
  | fuel + 1, c :: rest =>
      if isGlyph c then
        let body := rest.takeWhile (fun d => !isGlyph d)
        if body.isEmpty then bulletChunksF fuel rest
        else (c :: body) :: bulletChunksF fuel (rest.dropWhile (fun d => !isGlyph d))
      else bulletChunksF fuel rest

def bulletChunks (s : Str) : List Str := bulletChunksF s.length s

/-- `b.replace(/^[•·]\s*/, "")`. -/
def stripLead : Str → Str
  | [] => []
  | c :: r => if isGlyph c then r.dropWhile isWS else c :: r

/-- Number of matches of `/\.\s/g` (non-overlapping, advancing past each
match). -/
def countDotWS : Str → Nat
  | '.' :: c :: r => if isWS c then countDotWS r + 1 else countDotWS (c :: r)
  | _ :: r => countDotWS r
  | [] => 0

/-- First-occurrence index of a character, as the length of the longest
preceding prefix without it (agrees with `String.prototype.indexOf` when
the character is present, which is the only situation the code uses). -/
def indexOfChar (c : Char) (s : Str) : Nat :=
  (s.takeWhile (fun a => !(a = c))).length

/-- The closing-detection step on the extracted bullet list: if the last
bullet has two or more sentence-terminator-plus-whitespace patterns or is
longer than 150 characters it becomes the closing. -/
def bulletSplit (bullets : List Str) : List Str × Str :=
  match bullets.getLast? with
  | some last =>
      if 2 ≤ countDotWS last ∨ 150 < last.length then (bullets.dropLast, last)
      else (bullets, [])
  | none => (bullets, [])

/-- The `intro` of the no-bullets branch: the JavaScript truthiness chain
`paras.slice(0,-1).join("\n\n") || paras[0] || text`. -/
def noBulletIntro (paras : List Str) (text : Str) : Str :=
  let joined := List.intercalate ['\n', '\n'] paras.dropLast
  if joined.isEmpty then
    match paras.head? with
    | some p => if p.isEmpty then text else p
    | none => text
  else joined

/-- `parseAbout` from `src/app/page.tsx`. -/
def parseAbout (text : Str) : AboutSegments :=
  if text.any isGlyph then
    let fb := if text.any (fun c => c = '•') then indexOfChar '•' text
              else indexOfChar '·' text
    let bullets := ((bulletChunks (text.drop fb)).map
        (fun b => jsTrim (stripLead b))).filter (fun b => !b.isEmpty)
    let pr := bulletSplit bullets
    ⟨jsTrim (text.take fb), pr.1, pr.2⟩
  else
    let paras := ((splitNN text).map jsTrim).filter (fun p => !p.isEmpty)
    ⟨noBulletIntro paras text, [],
      if 1 < paras.length then paras.getLastD [] else []⟩

/-! ### Word-boundary pattern tests for `deriveTraits`

Each trait rule is a regex of the shape `\b(alt1|alt2|…)\b` tested against
the lower-cased text surface.  An alternative is a sequence of tokens:
literal characters, the `.` wildcard, or `\d+` (whose greedy run is
equivalent to backtracking here because it is always followed by a
non-digit literal). -/

inductive Tok where
  | lit (c : Char)
  | dot
  | digits
deriving Repr

/-- The token list of a plain keyword. -/
def lits (s : String) : List Tok := s.toList.map Tok.lit

/-- Length matched by a token sequence at the head of `s`, if any. -/
def tokRun : List Tok → Str → Option Nat
  | [], _ => some 0
  | Tok.lit c :: ts, a :: r => if a = c then (tokRun ts r).map (· + 1) else none
  | Tok.lit _ :: _, [] => none
  | Tok.dot :: ts, a :: r =>
      if a = '\n' ∨ a = '\r' ∨ a = Char.ofNat 0x2028 ∨ a = Char.ofNat 0x2029 then none
      else (tokRun ts r).map (· + 1)
  | Tok.dot :: _, [] => none
  | Tok.digits :: ts, s =>
      let ds := s.takeWhile Char.isDigit
      if ds.isEmpty then none
      else (tokRun ts (s.dropWhile Char.isDigit)).map (· + ds.length)

/-- Word-character status of an optional character (text edges count as
non-word). -/
def wordO : Option Char → Bool
  | none => false
  | some c => isWordChar c

/-- Does some alternative match at the current position, with `\b`
satisfied on both sides?  `prev` is the character before the position. -/
def hitAt (alts : List (List Tok)) (prev : Option Char) (s : Str) : Bool :=
  alts.any fun alt =>
    match tokRun alt s with
    | some n =>
        (wordO prev != wordO s.head?) &&
        (wordO (s.take n).getLast? != wordO (s.drop n).head?)
    | none => false

/-- Scan every position of `s` for a boundary-delimited match. -/
def wordScanGo (alts : List (List Tok)) : Option Char → Str → Bool
  | prev, [] => hitAt alts prev []
  | prev, s@(c :: r) => hitAt alts prev s || wordScanGo alts (some c) r

/-- `/\b(alt1|alt2|…)\b/.test(text)`. -/
def wordHit (alts : List (List Tok)) (text : Str) : Bool :=
  wordScanGo alts none text

/-! ### The profile data model (`src/types/cv.ts`) -/

structure Experience where
  title : Str
  company : Str
  duration : Str
  location : Option Str
  description : Option Str
deriving DecidableEq, Repr

structure Education where
  degree : Str
  field : Option Str
  school : Str
  years : Str
deriving DecidableEq, Repr

structure Certification where
  name : Str
  issuer : Option Str
  date : Option Str
deriving DecidableEq, Repr

structure Contact where
  email : Option Str
  phone : Option Str
  website : Option Str
  linkedin : Option Str
deriving DecidableEq, Repr

structure CVData where
  name : Str
  headline : Str
  location : Option Str
  about : Option Str
  photoUrl : Option Str
  contact : Option Contact
  experience : List Experience
  education : List Education
  skills : List Str
  certifications : Option (List Certification)
  personalInfo : Option Str
deriving DecidableEq, Repr

/-! ### The trait deriver `deriveTraits` -/

/-- The concatenated lower-cased text surface:
`[about ?? "", headline, ...experience.flatMap(e => [title, description ?? ""]), personalInfo ?? ""].join(" ").toLowerCase()`. -/
def allText (cv : CVData) : Str :=
  lowerStr (List.intercalate [' ']
    ([cv.about.getD [], cv.headline] ++
     cv.experience.flatMap (fun e => [e.title, e.description.getD []]) ++
     [cv.personalInfo.getD []]))

/-- The lower-cased role titles. -/
def titles (cv : CVData) : List Str :=
  cv.experience.map (fun e => lowerStr e.title)

def pLeadTitle : List (List Tok) :=
  [lits ("lead"), lits ("manager"), lits ("head of"), lits ("director"),
   lits ("vp "), lits ("chief"), lits ("president"), lits ("senior")]

def pStratTitle : List (List Tok) :=
  [lits ("strateg"), lits ("head of"), lits ("director"), lits ("vp "),
   lits ("chief"), lits ("principal")]

def pStratText : List (List Tok) :=
  [lits ("strateg"), lits ("vision"), lits ("roadmap"), lits ("executive")]

def pResults : List (List Tok) :=
  [[Tok.digits, Tok.lit '%'], [Tok.digits, Tok.lit 'x'], lits ("revenue"),
   lits ("growth"), lits ("delivered"), lits ("impact"), lits ("results"),
   lits ("targets"), lits ("exceeded")]

def pTeam : List (List Tok) :=
  [lits ("team"), lits ("collaborat"),
   lits ("cross") ++ [Tok.dot] ++ lits ("functional"),
   lits ("stakeholder"), lits ("partner")]

def pComm : List (List Tok) :=
  [lits ("communicat"), lits ("present"), lits ("client"), lits ("customer"),
   lits ("relations"), lits ("stakeholder")]

def pTech : List (List Tok) :=
  [lits ("engineer"), lits ("developer"), lits ("architect"),
   lits ("software"), lits ("technical")]

def pEntre : List (List Tok) :=
  [lits ("founder"), lits ("co") ++ [Tok.dot] ++ lits ("founder"),
   lits ("entrepreneur"), lits ("startup"),
   lits ("self") ++ [Tok.dot] ++ lits ("employ")]

def pData : List (List Tok) :=
  [lits ("data"), lits ("analytic"), lits ("insight"), lits ("research"),
   lits ("metrics"), lits ("kpi"), lits ("dashboard")]

def pLearn : List (List Tok) :=
  [lits ("certif"), lits ("upskill"), lits ("course")]

def pResil : List (List Tok) :=
  [lits ("adapt"), lits ("resilien"), lits ("pivot"), lits ("transiti"),
   lits ("versatil")]

def pDriven : List (List Tok) :=
  [lits ("passion"), lits ("driven"), lits ("motivat"), lits ("commit"),
   lits ("dedic"), lits ("enthusias"), lits ("ambiti")]

def pSport : List (List Tok) :=
  [lits ("marathon"), lits ("sport"), lits ("run"), lits ("football"),
   lits ("cricket"), lits ("gym"), lits ("fitness"), lits ("athlet"),
   lits ("swim"), lits ("cycl"), lits ("hik"), lits ("climb"), lits ("compet")]

def pMentor : List (List Tok) :=
  [lits ("coach"), lits ("mentor"), lits ("teach"), lits ("train"),
   lits ("guide"), lits ("volunteer")]

def pCreative : List (List Tok) :=
  [lits ("creativ"), lits ("design"), lits ("brand"), lits ("market"),
   lits ("storytell"), lits ("content"), lits ("innovat")]

def pGlobal : List (List Tok) :=
  [lits ("global"), lits ("international"), lits ("multinational"),
   lits ("cross") ++ [Tok.dot] ++ lits ("border"), lits ("worldwide")]

def pSolver : List (List Tok) :=
  [lits ("problem") ++ [Tok.dot] ++ lits ("solv"), lits ("solution"),
   lits ("complex"), lits ("troubleshoot"), lits ("optimi")]

def rule1 (cv : CVData) : Bool := (titles cv).any (wordHit pLeadTitle)
def rule2 (cv : CVData) : Bool :=
  (titles cv).any (wordHit pStratTitle) || wordHit pStratText (allText cv)
def rule3 (cv : CVData) : Bool := wordHit pResults (allText cv)
def rule4 (cv : CVData) : Bool := wordHit pTeam (allText cv)
def rule5 (cv : CVData) : Bool := wordHit pComm (allText cv)
def rule6 (cv : CVData) : Bool :=
  decide (6 ≤ cv.skills.length) || wordHit pTech (allText cv)
def rule7 (cv : CVData) : Bool := wordHit pEntre (allText cv)
def rule8 (cv : CVData) : Bool := wordHit pData (allText cv)
def rule9 (cv : CVData) : Bool :=
  decide (1 ≤ (cv.certifications.getD []).length) || wordHit pLearn (allText cv)
def rule10 (cv : CVData) : Bool :=
  decide (4 ≤ cv.experience.length) || wordHit pResil (allText cv)
def rule11 (cv : CVData) : Bool := wordHit pDriven (allText cv)
def rule12 (cv : CVData) : Bool := wordHit pSport (allText cv)
def rule13 (cv : CVData) : Bool := wordHit pMentor (allText cv)
def rule14 (cv : CVData) : Bool := wordHit pCreative (allText cv)
def rule15 (cv : CVData) : Bool := wordHit pGlobal (allText cv)
def rule16 (cv : CVData) : Bool := wordHit pSolver (allText cv)

/-- The ordered rule table of `deriveTraits`. -/
def rules : List ((CVData → Bool) × Str) :=
  [(rule1, str "Natural Leader"), (rule2, str "Strategic Thinker"),
   (rule3, str "Results-Driven"), (rule4, str "Team Player"),
   (rule5, str "Strong Communicator"), (rule6, str "Technically Fluent"),
   (rule7, str "Entrepreneurial"), (rule8, str "Data-Driven"),
   (rule9, str "Continuous Learner"), (rule10, str "Resilient"),
   (rule11, str "Driven"), (rule12, str "High Performer"),
   (rule13, str "Mentor & Coach"), (rule14, str "Creative"),
   (rule15, str "Global Mindset"), (rule16, str "Problem Solver")]

/-- The labels pushed by the matching rules, in table order. -/
def ruleLabels (cv : CVData) : List Str :=
  (rules.filter (fun r => r.1 cv)).map Prod.snd

/-- The three fallback pushes at the end of `deriveTraits`. -/
def forceTraits (l : List Str) : List Str :=
  let l1 := if str "Driven" ∈ l then l else l ++ [str "Driven"]
  let l2 := if l1.length < 3 ∧ str "Resilient" ∉ l1 then l1 ++ [str "Resilient"] else l1
  if l2.length < 4 ∧ str "Team Player" ∉ l2 then l2 ++ [str "Team Player"] else l2

/-- `[...new Set(l)]`: deduplication keeping first occurrences (the fuel
makes the recursion structural; the list length suffices since filtering
never lengthens the tail). -/
def dedupFirstF : Nat → List Str → List Str
  | 0, _ => []
  | _ + 1, [] => []
  | fuel + 1, a :: l => a :: dedupFirstF fuel (l.filter (fun b => !(b = a)))

def dedupFirst (l : List Str) : List Str := dedupFirstF l.length l

/-- `deriveTraits` from `src/app/page.tsx`. -/
def deriveTraits (cv : CVData) : List Str :=
  (dedupFirst (forceTraits (ruleLabels cv))).take 8

/-! ### The achievement extractor `extractStats` -/

structure Stat where
  value : Str
  label : Str
deriving DecidableEq, Repr

/-- The guarded insertion `add(value, label)`: skip when the value was
already emitted or four stats exist. -/
def addStat (rs : List Stat) (p : Stat) : List Stat :=
  if p.value ∈ rs.map Stat.value ∨ 4 ≤ rs.length then rs else rs ++ [p]

/-- Context-keyword classification of a currency figure. -/
def curLabel (ctx : Str) : Str :=
  if containsSub (str "sav") ctx then str "Savings"
  else if containsSub (str "revenue") ctx || containsSub (str "sales") ctx then str "Revenue"
  else if containsSub (str "fund") ctx then str "Funding"
  else if containsSub (str "contract") ctx || containsSub (str "deal") ctx then str "Contracts"
  else if containsSub (str "budget") ctx then str "Budget"
  else str "Value"

/-- Context-keyword classification of a percentage figure. -/
def pctLabel (ctx : Str) : Str :=
  if containsSub (str "revenue") ctx || containsSub (str "sales") ctx ||
     containsSub (str "grow") ctx then str "Revenue Growth"
  else if containsSub (str "cost") ctx || containsSub (str "spend") ctx ||
     containsSub (str "budget") ctx then str "Cost Reduction"
  else if containsSub (str "efficien") ctx then str "Efficiency Gain"
  else if containsSub (str "retention") ctx || containsSub (str "churn") ctx then str "Retention"
  else if containsSub (str "conversion") ctx then str "Conversion"
  else if containsSub (str "reduc") ctx || containsSub (str "decreas") ctx ||
     containsSub (str "cut") ctx then str "Reduction"
  else str "Improvement"

/-- Is there a `\b` between `k` (last matched character) and the head of
`r` (text edge counts as non-word)? -/
def wbAfter (k : Char) (r : Str) : Bool :=
  isWordChar k != wordO r.head?

/-- The optional fraction `(?:\.\d+)?` at the head of the input: returns
the consumed part (`.` plus digits, or nothing) and the rest. -/
def fracPart : Str → Str × Str
  | [] => ([], [])
  | c :: r3 =>
    if c = '.' then
      let fs := r3.takeWhile Char.isDigit
      if fs.isEmpty then ([], c :: r3) else (c :: fs, r3.dropWhile Char.isDigit)
    else ([], c :: r3)

/-- Match of `/([£$€])(\d+(?:\.\d+)?)([MKBmkb])\b/` at the head of the
input: returns the number part, the magnitude suffix and the rest. -/
def matchCurAt : Str → Option (Str × Char × Str)
  | [] => none
  | c :: rest =>
    if c = '£' || c = '$' || c = '€' then
      let ds := rest.takeWhile Char.isDigit
      if ds.isEmpty then none
      else
        let fr := fracPart (rest.dropWhile Char.isDigit)
        match fr.2 with
        | k :: r5 =>
            if (k = 'M' || k = 'K' || k = 'B' || k = 'm' || k = 'k' || k = 'b') &&
               wbAfter k r5
            then some (ds ++ fr.1, k, r5) else none
        | [] => none
    else none

/-- `desc.matchAll(currency-regex)` together with the per-match context
window and label: `pre` is the reversed consumed text, and a match advances
the scan past itself. -/
def curScan : Nat → Str → Str → List Stat
  | 0, _, _ => []
  | _ + 1, _, [] => []
  | fuel + 1, pre, c :: rest =>
    match matchCurAt (c :: rest) with
    | some (num, k, r5) =>
        let ctx := lowerStr ((pre.take 35).reverse ++ r5.take 35)
        ⟨c :: num ++ [asciiUpper k], curLabel ctx⟩ ::
          curScan fuel (List.reverseAux (c :: num ++ [k]) pre) r5
    | none => curScan fuel (c :: pre) rest

def currencyStats (desc : Str) : List Stat := curScan desc.length [] desc

/-- Match of `/(\d+(?:\.\d+)?)%/` at the head of the input. -/
def matchPctAt (s : Str) : Option (Str × Str) :=
  let ds := s.takeWhile Char.isDigit
  if ds.isEmpty then none
  else
    let fr := fracPart (s.dropWhile Char.isDigit)
    match fr.2 with
    | '%' :: r5 => some (ds ++ fr.1, r5)
    | _ => none

/-- `desc.matchAll(percentage-regex)` with context windows and labels. -/
def pctScan : Nat → Str → Str → List Stat
  | 0, _, _ => []
  | _ + 1, _, [] => []
  | fuel + 1, pre, c :: rest =>
    match matchPctAt (c :: rest) with
    | some (num, r5) =>
        let ctx := lowerStr ((pre.take 45).reverse ++ r5.take 35)
        ⟨num ++ ['%'], pctLabel ctx⟩ ::
          pctScan fuel (List.reverseAux (num ++ ['%']) pre) r5
    | none => pctScan fuel (c :: pre) rest

def pctStats (desc : Str) : List Stat := pctScan desc.length [] desc

/-- The leadership verbs of the team-size regex, in alternation order. -/
def teamVerbs : List Str :=
  [str "lead", str "led", str "manag", str "oversee", str "oversaw", str "supervis"]

/-- The headcount nouns of the team-size regex. -/
def teamNouns : List Str :=
  [str "people", str "person", str "staff", str "engineer", str "dev",
   str "member", str "report", str "direct", str "head"]

/-- `(\d{1,3})\s*(noun…)` at the head of `s`, with the `{1,3}` greedy
backtracking: three digits are tried first, then two, then one. -/
def tryDN (d : Nat) (s : Str) : Option Str :=
  let w := s.take d
  if w.length = d && w.all Char.isDigit then
    let s4 := (s.drop d).dropWhile isWS
    if teamNouns.any (fun n => isPrefOf n s4) then some w else none
  else none

def tryDigitsNoun (s : Str) : Option Str :=
  match tryDN 3 s with
  | some w => some w
  | none =>
    match tryDN 2 s with
    | some w => some w
    | none => tryDN 1 s

/-- The lazy gap `[^.]{0,25}?`: grow the gap one non-dot character at a
time until the digits-and-noun tail matches. -/
def tryGap : Nat → Str → Option Str
  | 0, s => tryDigitsNoun s
  | b + 1, s =>
    match tryDigitsNoun s with
    | some w => some w
    | none =>
      match s with
      | [] => none
      | c :: r => if c = '.' then none else tryGap b r

/-- A full team-size match starting exactly here (verb, lazy gap, digits,
whitespace, noun). -/
def tryTeamAt (s : Str) : Option Str :=
  match teamVerbs.find? (fun w => isPrefOf w s) with
  | some v => tryGap 25 (s.drop v.length)
  | none => none

/-- Leftmost match of the first team-size regex (on the lower-cased
description, as the `/i` flag lower-cases the comparison). -/
def teamScan1 : Str → Option Str
  | [] => none
  | s@(_ :: r) =>
    match tryTeamAt s with
    | some w => some w
    | none => teamScan1 r

/-- Leftmost match of the fallback `/team of (\d{1,3})/i`. -/
def teamScan2 : Str → Option Str
  | [] => none
  | s@(_ :: r) =>
    if isPrefOf (str "team of ") s then
      let w := ((s.drop 8).takeWhile Char.isDigit).take 3
      if w.isEmpty then teamScan2 r else some w
    else teamScan2 r

def teamStat (ld : Str) : Option Stat :=
  match teamScan1 ld with
  | some w => some ⟨w, str "Team Size"⟩
  | none => (teamScan2 ld).map (fun w => ⟨w, str "Team Size"⟩)

/-- Match of `(\d+)\s*\+?\s*(noun…)\b` at the head of `s` (shared by the
clients, projects and markets regexes, which differ in their noun list). -/
def countMatchAt (nouns : List Str) (s : Str) : Option Str :=
  let ds := s.takeWhile Char.isDigit
  if ds.isEmpty then none
  else
    let s2 := (s.dropWhile Char.isDigit).dropWhile isWS
    let s3 := match s2 with
      | '+' :: r => r
      | _ => s2
    let s4 := s3.dropWhile isWS
    match nouns.find? (fun n => isPrefOf n s4) with
    | some n =>
        if wordO n.getLast? != wordO (s4.drop n.length).head? then some ds else none
    | none => none

def countScan (nouns : List Str) : Str → Option Str
  | [] => none
  | s@(_ :: r) =>
    match countMatchAt nouns s with
    | some w => some w
    | none => countScan nouns r

def clientNouns : List Str := [str "client", str "customer", str "user", str "account"]

def projNouns : List Str := [str "project", str "product", str "initiative", str "programme"]

def mktNouns : List Str := [str "countr", str "market", str "region", str "office", str "site"]

def clientStat (ld : Str) : Option Stat :=
  (countScan clientNouns ld).map (fun w => ⟨w ++ ['+'], str "Clients"⟩)

def projStat (ld : Str) : Option Stat :=
  (countScan projNouns ld).map (fun w => ⟨w, str "Projects"⟩)

def mktStat (ld : Str) : Option Stat :=
  (countScan mktNouns ld).map (fun w => ⟨w ++ ['+'], str "Markets"⟩)

/-- `extractStats` from `src/app/page.tsx`: the six pattern families fill
the shared four-slot budget in priority order through `addStat`. -/
def extractStats (desc : Str) : List Stat :=
  let ld := lowerStr desc
  let r1 := List.foldl addStat [] (currencyStats desc)
  let r2 := List.foldl addStat r1 (pctStats desc)
  let r3 := List.foldl addStat r2 (teamStat ld).toList
  let r4 := List.foldl addStat r3 (clientStat ld).toList
  let r5 := List.foldl addStat r4 (projStat ld).toList
  List.foldl addStat r5 (mktStat ld).toList

/-! ### Derived notions used to state the claims -/

/-- The labels a currency-family match can carry. -/
def curLabels : List Str :=
  [str "Savings", str "Revenue", str "Funding", str "Contracts",
   str "Budget", str "Value"]

/-- The labels a percentage-family match can carry. -/
def pctLabels : List Str :=
  [str "Revenue Growth", str "Cost Reduction", str "Efficiency Gain",
   str "Retention", str "Conversion", str "Reduction", str "Improvement"]

/-- The priority rank of a stat's pattern family, recovered from its label
(the six families have pairwise disjoint label vocabularies). -/
def rankOf (lb : Str) : Nat :=
  if lb ∈ curLabels then 0
  else if lb ∈ pctLabels then 1
  else if lb = str "Team Size" then 2
  else if lb = str "Clients" then 3
  else if lb = str "Projects" then 4
  else if lb = str "Markets" then 5
  else 6

/-- A stat value is the literal matched figure up to the two output
normalisations the code performs: appending a `+` (clients and markets
families) and upper-casing the magnitude suffix (currency family). -/
def NearLit (v desc : Str) : Prop :=
  containsSub v desc = true ∨
  (∃ w, v = w ++ ['+'] ∧ containsSub w desc = true) ∨
  (∃ w c, v = w ++ [asciiUpper c] ∧ containsSub (w ++ [c]) desc = true)

/-! ### Concrete inputs used by the claims, their witnesses and their
counterexamples -/

def c2desc : Str := str "We grew revenue by 35% and led a team of 12 people."

def c3desc : Str := str "Cut costs by 20% and managed a $3M budget."

def c4desc : Str := str "worked with 120 client accounts"

def c5text : Str :=
  str "Lead engineer. • Built systems. • Shipped X. • Over the past decade I have led many teams across multiple continents, delivering consistent results for stakeholders."

def c5last : Str :=
  str "Over the past decade I have led many teams across multiple continents, delivering consistent results for stakeholders."

def c6text : Str := str "a · b • c"

/-- A profile record with every optional field absent and no lists. -/
def cvBase : CVData :=
  ⟨str "X", [], none, none, none, none, [], [], [], none, none⟩

/-- A record matching ten keyword rules before the "Driven" rule, which it
does not match. -/
def cv8 : CVData :=
  { cvBase with
    about := some (str "strateg revenue team client engineer founder data certif adapt"),
    experience := [⟨str "lead", [], [], none, none⟩] }

def expA : Experience := ⟨str "a", [], [], none, some (str "cross")⟩

def expB : Experience := ⟨str "functional", [], [], none, some (str "b")⟩

/-- Two records differing only in the order of their two roles; the
keyword `cross.functional` matches across the join boundary in one order
only. -/
def cv9a : CVData := { cvBase with experience := [expA, expB] }

def cv9b : CVData := { cvBase with experience := [expB, expA] }

/-- Two distinct roles (different `company`) whose title and description
coincide, so swapping them leaves the concatenated text surface
unchanged. -/
def e1w : Experience := ⟨str "dev", [], [], none, none⟩

def e2w : Experience := ⟨str "dev", str "Acme", [], none, none⟩

def cvW : CVData := { cvBase with experience := [e1w, e2w] }

/-! ## Theorems -/

/-! ### Generic helper lemmas -/

theorem isPrefOf_append (m t : Str) : isPrefOf m (m ++ t) = true := by
  induction m with
  | nil => rfl
  | cons a as ih => simp [isPrefOf, ih]

theorem containsSub_of_isPrefOf {m s : Str} (h : isPrefOf m s = true) :
    containsSub m s = true := by
  cases s with
  | nil => simpa [containsSub] using h
  | cons c r => simp [containsSub, h]

theorem containsSub_append_left (a : Str) {m s : Str} (h : containsSub m s = true) :
    containsSub m (a ++ s) = true := by
  induction a with
  | nil => simpa using h
  | cons c r ih => simp [containsSub, ih]

theorem take_pref (s : Str) (n : Nat) : isPrefOf (s.take n) s = true := by
  induction s generalizing n with
  | nil => simp [isPrefOf]
  | cons c r ih =>
    cases n with
    | zero => simp [isPrefOf]
    | succ n => simp [isPrefOf, ih]

theorem takeWhile_pref (p : Char → Bool) (s : Str) :
    isPrefOf (s.takeWhile p) s = true := by
  induction s with
  | nil => rfl
  | cons c r ih =>
    by_cases h : p c
    · simp [List.takeWhile_cons, h, isPrefOf, ih]
    · simp [List.takeWhile_cons, h, isPrefOf]

theorem isPrefOf_trans {a b c : Str} (h1 : isPrefOf a b = true)
    (h2 : isPrefOf b c = true) : isPrefOf a c = true := by
  induction a generalizing b c with
  | nil => rfl
  | cons x as ih =>
    cases b with
    | nil => simp [isPrefOf] at h1
    | cons y bs =>
      cases c with
      | nil => simp [isPrefOf] at h2
      | cons z cs =>
        simp only [isPrefOf, Bool.and_eq_true, decide_eq_true_eq] at h1 h2 ⊢
        obtain ⟨rfl, h1'⟩ := h1
        obtain ⟨rfl, h2'⟩ := h2
        exact ⟨rfl, ih h1' h2'⟩

theorem take_length_takeWhile (p : Char → Bool) (s : Str) :
    s.take (s.takeWhile p).length = s.takeWhile p := by
  induction s with
  | nil => rfl
  | cons c r ih =>
    by_cases h : p c
    · simp [List.takeWhile_cons, h, ih]
    · simp [List.takeWhile_cons, h]

theorem takeWhile_all (p : Char → Bool) (s : Str) :
    (s.takeWhile p).all p = true := by
  induction s with
  | nil => rfl
  | cons c r ih =>
    by_cases h : p c
    · simp [List.takeWhile_cons, h, ih]
    · simp [List.takeWhile_cons, h]

theorem all_take {p : Char → Bool} {s : Str} (h : s.all p = true) (n : Nat) :
    (s.take n).all p = true := by
  simp only [List.all_eq_true] at h ⊢
  intro x hx
  exact h x ((List.take_sublist n s).subset hx)

theorem dropWhile_all {p : Char → Bool} {s : Str} (h : ∀ c ∈ s, p c = true) :
    s.dropWhile p = [] := by
  induction s with
  | nil => rfl
  | cons c r ih =>
    simp [List.dropWhile_cons, h c (by simp), ih (fun x hx => h x (by simp [hx]))]

theorem jsTrim_ws {s : Str} (h : ∀ c ∈ s, isWS c = true) : jsTrim s = [] := by
  unfold jsTrim
  rw [dropWhile_all h]
  rfl

theorem two_le_length {l : List Str} {a b : Str} (ha : a ∈ l) (hb : b ∈ l)
    (hab : a ≠ b) : 2 ≤ l.length := by
  have hsub : ({a, b} : Finset Str) ⊆ l.toFinset := by
    intro x hx
    rw [List.mem_toFinset]
    rcases Finset.mem_insert.mp hx with rfl | hx
    · exact ha
    · rw [Finset.mem_singleton] at hx
      exact hx ▸ hb
  have hcard : ({a, b} : Finset Str).card = 2 := by
    rw [Finset.card_insert_of_not_mem (by simp [hab]), Finset.card_singleton]
  calc 2 = ({a, b} : Finset Str).card := hcard.symm
    _ ≤ l.toFinset.card := Finset.card_le_card hsub
    _ ≤ l.length := l.toFinset_card_le

theorem three_le_length {l : List Str} {a b c : Str} (ha : a ∈ l) (hb : b ∈ l)
    (hc : c ∈ l) (hab : a ≠ b) (hac : a ≠ c) (hbc : b ≠ c) : 3 ≤ l.length := by
  have hsub : ({a, b, c} : Finset Str) ⊆ l.toFinset := by
    intro x hx
    rw [List.mem_toFinset]
    rcases Finset.mem_insert.mp hx with rfl | hx
    · exact ha
    · rcases Finset.mem_insert.mp hx with rfl | hx
      · exact hb
      · rw [Finset.mem_singleton] at hx
        exact hx ▸ hc
  have hcard : ({a, b, c} : Finset Str).card = 3 := by
    rw [Finset.card_insert_of_not_mem (by simp [hab, hac]),
      Finset.card_insert_of_not_mem (by simp [hbc]), Finset.card_singleton]
  calc 3 = ({a, b, c} : Finset Str).card := hcard.symm
    _ ≤ l.toFinset.card := Finset.card_le_card hsub
    _ ≤ l.length := l.toFinset_card_le

theorem perm_any {α : Type} {l l' : List α} (h : l.Perm l') (p : α → Bool) :
    l.any p = l'.any p := by
  cases hl : l.any p <;> cases hl' : l'.any p <;> simp_all [List.any_eq_true]
  · obtain ⟨a, ha, hpa⟩ := hl'
    exact absurd hpa (by simp [hl a (h.mem_iff.mpr ha)])
  · obtain ⟨a, ha, hpa⟩ := hl
    exact absurd hpa (by simp [hl' a (h.mem_iff.mp ha)])

theorem dedupFirstF_eq : ∀ (fuel : Nat) {l : List Str}, l.length ≤ fuel →
    l.Nodup → dedupFirstF fuel l = l := by
  intro fuel
  induction fuel with
  | zero =>
    intro l h _
    have hl : l = [] := List.length_eq_zero.mp (by omega)
    subst hl
    rfl
  | succ fuel ih =>
    intro l h hn
    cases l with
    | nil => rfl
    | cons a l =>
      simp only [dedupFirstF]
      have hfilter : l.filter (fun b => !(b = a)) = l := by
        apply List.filter_eq_self.mpr
        intro b hb
        have hne : b ≠ a := by
          rintro rfl
          exact (List.nodup_cons.mp hn).1 hb
        simp [hne]
      rw [hfilter, ih (by simpa using h) (List.nodup_cons.mp hn).2]

theorem dedupFirst_eq {l : List Str} (hn : l.Nodup) : dedupFirst l = l :=
  dedupFirstF_eq _ le_rfl hn

/-! ### Invariants of the `extractStats` accumulator -/

theorem addStat_inv {rs : List Stat} {p : Stat}
    (h : rs.length ≤ 4 ∧ (rs.map Stat.value).Nodup) :
    (addStat rs p).length ≤ 4 ∧ ((addStat rs p).map Stat.value).Nodup := by
  unfold addStat
  split
  · exact h
  · rename_i hcond
    push_neg at hcond
    constructor
    · simp only [List.length_append, List.length_cons, List.length_nil]
      omega
    · simp only [List.map_append, List.map_cons, List.map_nil]
      rw [List.nodup_append]
      refine ⟨h.2, List.nodup_singleton _, ?_⟩
      intro x hx hx'
      simp only [List.mem_cons, List.not_mem_nil, or_false] at hx'
      exact hcond.1 (hx' ▸ hx)

theorem foldl_addStat_inv (ps : List Stat) : ∀ {init : List Stat},
    init.length ≤ 4 ∧ (init.map Stat.value).Nodup →
    (List.foldl addStat init ps).length ≤ 4 ∧
      ((List.foldl addStat init ps).map Stat.value).Nodup := by
  induction ps with
  | nil => intro init h; exact h
  | cons p ps ih =>
    intro init h
    exact ih (addStat_inv h)

theorem mem_foldl_addStat {e : Stat} : ∀ (ps : List Stat) {init : List Stat},
    e ∈ List.foldl addStat init ps → e ∈ init ∨ e ∈ ps := by
  intro ps
  induction ps with
  | nil =>
    intro init h
    exact Or.inl h
  | cons p ps ih =>
    intro init h
    rcases ih h with h' | h'
    · unfold addStat at h'
      split at h'
      · exact Or.inl h'
      · rcases List.mem_append.mp h' with h'' | h''
        · exact Or.inl h''
        · simp only [List.mem_cons, List.not_mem_nil, or_false] at h''
          exact Or.inr (by simp [h''])
    · exact Or.inr (by simp [h'])

/-! ### Facts about the trait pipeline -/

theorem ruleLabels_nodup (cv : CVData) : (ruleLabels cv).Nodup := by
  have h1 : (rules.map Prod.snd).Nodup := by decide
  have h2 : ((rules.filter (fun r => r.1 cv)).map Prod.snd).Sublist
      (rules.map Prod.snd) := List.Sublist.map _ (List.filter_sublist _)
  exact h2.nodup h1

theorem forceTraits_facts {l : List Str} (hn : l.Nodup) :
    (forceTraits l).Nodup ∧ str "Driven" ∈ forceTraits l ∧
      3 ≤ (forceTraits l).length := by
  have hDR : str "Driven" ≠ str "Resilient" := by decide
  have hDT : str "Driven" ≠ str "Team Player" := by decide
  have hRT : str "Resilient" ≠ str "Team Player" := by decide
  simp only [forceTraits]
  set l1 := if str "Driven" ∈ l then l else l ++ [str "Driven"] with hl1
  have h1n : l1.Nodup := by
    rw [hl1]
    split
    · exact hn
    · rename_i h
      rw [List.nodup_append]
      refine ⟨hn, List.nodup_singleton _, ?_⟩
      intro x hx hx'
      simp only [List.mem_cons, List.not_mem_nil, or_false] at hx'
      exact h (hx' ▸ hx)
  have h1D : str "Driven" ∈ l1 := by
    rw [hl1]
    split
    · assumption
    · simp
  set l2 := if l1.length < 3 ∧ str "Resilient" ∉ l1 then l1 ++ [str "Resilient"] else l1
    with hl2
  have h2n : l2.Nodup := by
    rw [hl2]
    split
    · rename_i h
      rw [List.nodup_append]
      refine ⟨h1n, List.nodup_singleton _, ?_⟩
      intro x hx hx'
      simp only [List.mem_cons, List.not_mem_nil, or_false] at hx'
      exact h.2 (hx' ▸ hx)
    · exact h1n
  have h2D : str "Driven" ∈ l2 := by
    rw [hl2]
    split <;> simp [h1D]
  have h2inv : 3 ≤ l2.length ∨ (l2.length = 2 ∧ str "Resilient" ∈ l2) := by
    rw [hl2]
    split
    · rename_i h
      have hpos : 1 ≤ l1.length := List.length_pos.mpr (List.ne_nil_of_mem h1D)
      rcases Nat.lt_or_ge l1.length 2 with h2 | h2
      · right
        constructor
        · simp only [List.length_append, List.length_cons, List.length_nil]
          omega
        · simp
      · left
        simp only [List.length_append, List.length_cons, List.length_nil]
        omega
    · rename_i h
      push_neg at h
      by_cases h3 : 3 ≤ l1.length
      · exact Or.inl h3
      · have hR : str "Resilient" ∈ l1 := h (by omega)
        have h2le : 2 ≤ l1.length := two_le_length h1D hR hDR
        exact Or.inr ⟨by omega, hR⟩
  constructor
  · split
    · rename_i h
      rw [List.nodup_append]
      refine ⟨h2n, List.nodup_singleton _, ?_⟩
      intro x hx hx'
      simp only [List.mem_cons, List.not_mem_nil, or_false] at hx'
      exact h.2 (hx' ▸ hx)
    · exact h2n
  constructor
  · split <;> simp [h2D]
  · split
    · rename_i h
      simp only [List.length_append, List.length_cons, List.length_nil]
      rcases h2inv with h' | h' <;> omega
    · rename_i h
      push_neg at h
      by_cases h4 : 4 ≤ l2.length
      · omega
      · have hT : str "Team Player" ∈ l2 := h (by omega)
        rcases h2inv with h' | h'
        · exact h'
        · exact three_le_length h2D h'.2 hT hDR hDT hRT

theorem deriveTraits_facts (cv : CVData) :
    3 ≤ (deriveTraits cv).length ∧ (deriveTraits cv).length ≤ 8 ∧
      (str "Driven" ∈ deriveTraits cv ∨ (deriveTraits cv).length = 8) := by
  obtain ⟨h3n, h3D, h3len⟩ := forceTraits_facts (ruleLabels_nodup cv)
  unfold deriveTraits
  rw [dedupFirst_eq h3n]
  refine ⟨?_, ?_, ?_⟩
  · rw [List.length_take]
    omega
  · rw [List.length_take]
    omega
  · by_cases hD : str "Driven" ∈ (forceTraits (ruleLabels cv)).take 8
    · exact Or.inl hD
    · right
      have hsplit : str "Driven" ∈ (forceTraits (ruleLabels cv)).take 8 ++
          (forceTraits (ruleLabels cv)).drop 8 := by
        rw [List.take_append_drop]
        exact h3D
      rcases List.mem_append.mp hsplit with h | h
      · exact absurd h hD
      · have hlen : 8 < (forceTraits (ruleLabels cv)).length := by
          by_contra hle
          rw [List.drop_eq_nil_iff.mpr (by omega)] at h
          exact absurd h (List.not_mem_nil _)
        rw [List.length_take]
        omega

/-- C1: for every input description string, `extractStats` returns at most
4 entries and never two entries with the same value string, and
`extractStats ""` returns the empty list. -/
theorem c1_extract_bounds :
    (∀ desc : Str, (extractStats desc).length ≤ 4 ∧
      ((extractStats desc).map Stat.value).Nodup) ∧
    extractStats (str "") = [] := by
  constructor
  · intro desc
    unfold extractStats
    exact foldl_addStat_inv _ (foldl_addStat_inv _ (foldl_addStat_inv _
      (foldl_addStat_inv _ (foldl_addStat_inv _ (foldl_addStat_inv _
        ⟨by simp, by simp⟩)))))
  · decide

/-- C8 amended: `deriveTraits` always returns a non-empty list of at most
8 labels, and the result contains "Driven" unless the 8-label cap was hit
(when eight earlier-priority rules matched, "Driven" can be truncated
away). -/
theorem c8_traits_bounds (cv : CVData) :
    deriveTraits cv ≠ [] ∧ (deriveTraits cv).length ≤ 8 ∧
      (str "Driven" ∈ deriveTraits cv ∨ (deriveTraits cv).length = 8) := by
  obtain ⟨h3, h8, hD⟩ := deriveTraits_facts cv
  exact ⟨List.ne_nil_of_length_pos (by omega), h8, hD⟩

/-- C10: `deriveTraits` always returns at least 3 trait labels: the
fallback pushes of "Driven", "Resilient" and "Team Player" guarantee three
entries before the cap, and the cap keeps at least three. -/
theorem c10_at_least_three (cv : CVData) : 3 ≤ (deriveTraits cv).length :=
  (deriveTraits_facts cv).1

/-! ### Facts about `parseAbout` -/

theorem ws_not_glyph {c : Char} (h : isWS c = true) : isGlyph c = false := by
  simp only [isWS, Bool.or_eq_true, decide_eq_true_eq] at h
  rcases h with ((((((((h|h)|h)|h)|h)|h)|h)|h)|h)|h <;> subst h <;> decide

theorem splitNLF_ws {P : Char → Prop} : ∀ (fuel : Nat) (s cur : Str),
    (∀ c ∈ s, P c) → (∀ c ∈ cur, P c) →
    ∀ p ∈ splitNLF fuel s cur, ∀ c ∈ p, P c := by
  intro fuel
  induction fuel with
  | zero =>
    intro s cur hs hcur p hp c hc
    simp only [splitNLF, List.mem_singleton] at hp
    subst hp
    rcases List.mem_append.mp hc with h | h
    · exact hcur c (List.mem_reverse.mp h)
    · exact hs c h
  | succ fuel ih =>
    intro s cur hs hcur p hp c hc
    cases s with
    | nil =>
      simp only [splitNLF, List.mem_singleton] at hp
      subst hp
      exact hcur c (List.mem_reverse.mp hc)
    | cons a rest =>
      simp only [splitNLF] at hp
      split at hp
      · rcases List.mem_cons.mp hp with rfl | hp'
        · exact hcur c (List.mem_reverse.mp hc)
        · refine ih (rest.dropWhile _) [] ?_ (by simp) p hp' c hc
          intro x hx
          exact hs x (List.mem_cons_of_mem _ ((List.dropWhile_sublist _).subset hx))
      · refine ih rest (a :: cur) ?_ ?_ p hp c hc
        · intro x hx
          exact hs x (List.mem_cons_of_mem _ hx)
        · intro x hx
          rcases List.mem_cons.mp hx with rfl | hx'
          · exact hs x (List.mem_cons_self _ _)
          · exact hcur x hx'

/-- C6 amended: when the text contains `•`, the intro is the trimmed text
strictly before the first `•` (even when a `·` occurs earlier); only when
no `•` occurs is the intro the trimmed text before the first `·`. -/
theorem c6_intro_amended (text : Str) :
    ('•' ∈ text →
      (parseAbout text).intro = jsTrim (text.takeWhile (fun a => !(a = '•')))) ∧
    ('•' ∉ text → '·' ∈ text →
      (parseAbout text).intro = jsTrim (text.takeWhile (fun a => !(a = '·')))) := by
  constructor
  · intro h
    have hg : text.any isGlyph = true := List.any_of_mem h (by decide)
    have hb : text.any (fun c => c = '•') = true := List.any_of_mem h (by decide)
    unfold parseAbout
    rw [if_pos hg]
    dsimp only
    rw [if_pos hb]
    unfold indexOfChar
    rw [take_length_takeWhile]
  · intro hno hyes
    have hg : text.any isGlyph = true := List.any_of_mem hyes (by decide)
    have hb : text.any (fun c => c = '•') = false := by
      simp only [List.any_eq_false, decide_eq_true_eq]
      intro x hx
      rintro rfl
      exact hno hx
    unfold parseAbout
    rw [if_pos hg]
    dsimp only
    rw [if_neg (by simp [hb])]
    unfold indexOfChar
    rw [take_length_takeWhile]

/-- C6 amended witness: both branches evaluated at concrete inputs. -/
theorem c6_intro_amended_witness :
    (parseAbout (str "x • y")).intro =
      jsTrim ((str "x • y").takeWhile (fun a => !(a = '•'))) ∧
    (parseAbout (str "x · y")).intro =
      jsTrim ((str "x · y").takeWhile (fun a => !(a = '·'))) :=
  ⟨(c6_intro_amended (str "x • y")).1 (by decide),
   (c6_intro_amended (str "x · y")).2 (by decide) (by decide)⟩

/-- C7 amended: an empty or whitespace-only about-text yields empty
highlights and closing and raises no error, but its intro is the original
text verbatim (the never-lose-content fallback), which is empty only for
the empty input. -/
theorem c7_ws_verbatim (text : Str) (h : ∀ c ∈ text, isWS c = true) :
    parseAbout text = ⟨text, [], []⟩ := by
  have hg : text.any isGlyph = false := by
    simp only [List.any_eq_false]
    intro c hc
    simp [ws_not_glyph (h c hc)]
  unfold parseAbout
  rw [if_neg (by simp [hg])]
  dsimp only
  have hparas : ((splitNN text).map jsTrim).filter (fun p => !p.isEmpty) = [] := by
    apply List.filter_eq_nil_iff.mpr
    intro x hx
    rw [List.mem_map] at hx
    obtain ⟨p, hp, rfl⟩ := hx
    rw [jsTrim_ws (splitNLF_ws _ _ _ h (by simp) p hp)]
    simp
  rw [hparas]
  rfl

/-- C7 amended witness: the theorem applied at the whitespace-only input
`"   "`. -/
theorem c7_ws_verbatim_witness :
    parseAbout (str "   ") = ⟨str "   ", [], []⟩ :=
  c7_ws_verbatim (str "   ") (by decide)

/-- C9 amended: permuting the experience list preserves the trait list
whenever the concatenated text surface is unchanged by the permutation:
the title predicates and the structural counts are order-insensitive, and
the only order-sensitive input is the joined text (whose keyword matches
can span adjacent entries). -/
theorem c9_perm_amended (cv : CVData) (exp2 : List Experience)
    (hperm : cv.experience.Perm exp2)
    (hall : allText { cv with experience := exp2 } = allText cv) :
    deriveTraits { cv with experience := exp2 } = deriveTraits cv := by
  set cv' := { cv with experience := exp2 } with hcv'
  have htitles : (titles cv').Perm (titles cv) := (hperm.map _).symm
  have hany : ∀ p, (titles cv').any p = (titles cv).any p :=
    fun p => perm_any htitles p
  have hlen : cv'.experience.length = cv.experience.length := hperm.length_eq.symm
  have h1 : rule1 cv' = rule1 cv := by
    unfold rule1
    exact hany _
  have h2 : rule2 cv' = rule2 cv := by
    unfold rule2
    rw [hany, hall]
  have h3 : rule3 cv' = rule3 cv := by
    unfold rule3
    rw [hall]
  have h4 : rule4 cv' = rule4 cv := by
    unfold rule4
    rw [hall]
  have h5 : rule5 cv' = rule5 cv := by
    unfold rule5
    rw [hall]
  have h6 : rule6 cv' = rule6 cv := by
    unfold rule6
    rw [hall]
  have h7 : rule7 cv' = rule7 cv := by
    unfold rule7
    rw [hall]
  have h8 : rule8 cv' = rule8 cv := by
    unfold rule8
    rw [hall]
  have h9 : rule9 cv' = rule9 cv := by
    unfold rule9
    rw [hall]
  have h10 : rule10 cv' = rule10 cv := by
    unfold rule10
    rw [hlen, hall]
  have h11 : rule11 cv' = rule11 cv := by
    unfold rule11
    rw [hall]
  have h12 : rule12 cv' = rule12 cv := by
    unfold rule12
    rw [hall]
  have h13 : rule13 cv' = rule13 cv := by
    unfold rule13
    rw [hall]
  have h14 : rule14 cv' = rule14 cv := by
    unfold rule14
    rw [hall]
  have h15 : rule15 cv' = rule15 cv := by
    unfold rule15
    rw [hall]
  have h16 : rule16 cv' = rule16 cv := by
    unfold rule16
    rw [hall]
  have hlabels : ruleLabels cv' = ruleLabels cv := by
    unfold ruleLabels
    congr 1
    apply List.filter_congr
    intro r hr
    simp only [rules, List.mem_cons, List.not_mem_nil, or_false] at hr
    rcases hr with rfl|rfl|rfl|rfl|rfl|rfl|rfl|rfl|rfl|rfl|rfl|rfl|rfl|rfl|rfl|rfl <;>
      dsimp only <;> assumption
  unfold deriveTraits
  rw [hlabels]

/-- C9 amended witness: swapping two distinct roles that differ only in
their company leaves the text surface, and hence the trait list,
unchanged. -/
theorem c9_perm_amended_witness :
    deriveTraits { cvW with experience := [e2w, e1w] } = deriveTraits cvW :=
  c9_perm_amended cvW [e2w, e1w] (List.Perm.swap e2w e1w []) (by decide)

/-- C2: `extractStats` applied to the exact string `"We grew revenue by
35% and led a team of 12 people."` returns exactly the two-element list
`[{value: "35%", label: "Revenue Growth"}, {value: "12", label: "Team
Size"}]`, in that order. -/
theorem c2_extract_concrete :
    extractStats c2desc =
      [⟨str "35%", str "Revenue Growth"⟩, ⟨str "12", str "Team Size"⟩] := by
  decide

/-- C5 counterexample: on the given about-text the last bullet is 118
characters long with no sentence-terminator-plus-space inside, so the
reclassification the claim asserts does not happen. -/
theorem c5_counterexample :
    ¬((parseAbout c5text).highlights = [str "Built systems.", str "Shipped X."] ∧
      (parseAbout c5text).closing = c5last) := by
  decide

/-- C5 amended: on that about-text the last bullet stays a highlight
(it is 118 ≤ 150 characters long and contains no ". " pattern), so
`parseAbout` returns all three bullets as highlights and an empty
closing. -/
theorem c5_no_reclassify :
    parseAbout c5text =
      ⟨str "Lead engineer.", [str "Built systems.", str "Shipped X.", c5last], []⟩ ∧
    c5last.length = 118 ∧ countDotWS c5last = 0 := by
  decide

/-- C3 counterexample: in `"Cut costs by 20% and managed a $3M budget."`
the figure `20%` occurs before `$3M` in the text, yet the currency entry
`$3M` is returned first — output order follows family priority, not text
order. -/
theorem c3_counterexample :
    extractStats c3desc =
      [⟨str "$3M", str "Budget"⟩, ⟨str "20%", str "Cost Reduction"⟩] ∧
    containsSub (str "20%") c3desc = true ∧
    containsSub (str "$3M") c3desc = true ∧
    subIdx (str "20%") c3desc < subIdx (str "$3M") c3desc := by
  decide

/-- C4 counterexample: on `"worked with 120 client accounts"` the matched
figure is the literal `120`, but the returned value is `120+`, which does
not occur in the source text. -/
theorem c4_counterexample :
    extractStats c4desc = [⟨str "120+", str "Clients"⟩] ∧
    containsSub (str "120+") c4desc = false ∧
    containsSub (str "120") c4desc = true := by
  decide

/-- C6 counterexample: in `"a · b • c"` the first bullet glyph is the `·`
at index 2, but the code takes the intro up to the first `•`, so the intro
is `"a · b"` instead of the claimed `"a"`. -/
theorem c6_counterexample :
    (parseAbout c6text).intro = str "a · b" ∧
    jsTrim (c6text.takeWhile (fun c => !isGlyph c)) = str "a" ∧
    (parseAbout c6text).intro ≠ jsTrim (c6text.takeWhile (fun c => !isGlyph c)) := by
  decide

/-- C7 counterexample: on the whitespace-only input `"   "` the
never-lose-content fallback makes the intro the original text verbatim,
not the empty string the claim asserts. -/
theorem c7_counterexample :
    (parseAbout (str "   ")).intro = str "   " ∧
    (parseAbout (str "   ")).intro ≠ [] := by
  decide

/-- C8 counterexample: a record matching ten rule labels before the
Driven fallback is truncated to eight labels, and "Driven" is cut off, so
the result does not always contain "Driven". -/
theorem c8_counterexample :
    deriveTraits cv8 =
      [str "Natural Leader", str "Strategic Thinker", str "Results-Driven",
       str "Team Player", str "Strong Communicator", str "Technically Fluent",
       str "Entrepreneurial", str "Data-Driven"] ∧
    str "Driven" ∉ deriveTraits cv8 := by
  decide

/-- C9 counterexample: two records differing only by a permutation of the
two-role experience list produce different trait lists, because the
keyword `cross.functional` matches across the join boundary of the
concatenated text surface in one order only. -/
theorem c9_counterexample :
    cv9a.experience.Perm cv9b.experience ∧
    deriveTraits cv9a = [str "Team Player", str "Driven", str "Resilient"] ∧
    deriveTraits cv9b = [str "Driven", str "Resilient", str "Team Player"] ∧
    deriveTraits cv9a ≠ deriveTraits cv9b := by
  refine ⟨List.Perm.swap expB expA [], by decide, by decide, by decide⟩

/-! ### Facts about the `extractStats` scanners -/

theorem fracPart_append (r2 : Str) : (fracPart r2).1 ++ (fracPart r2).2 = r2 := by
  cases r2 with
  | nil => rfl
  | cons c r3 =>
    simp only [fracPart]
    split
    · split
      · simp
      · simp [List.takeWhile_append_dropWhile]
    · simp

theorem matchCurAt_shape {c : Char} {rest num : Str} {k : Char} {r : Str}
    (h : matchCurAt (c :: rest) = some (num, k, r)) : rest = num ++ k :: r := by
  simp only [matchCurAt] at h
  split at h
  · split at h
    · simp at h
    · split at h
      · rename_i k' r5 heq
        split at h
        · simp only [Option.some.injEq, Prod.mk.injEq] at h
          obtain ⟨hnum, hk, hr⟩ := h
          calc rest = rest.takeWhile Char.isDigit ++ rest.dropWhile Char.isDigit :=
                (List.takeWhile_append_dropWhile _ _).symm
            _ = rest.takeWhile Char.isDigit ++
                ((fracPart (rest.dropWhile Char.isDigit)).1 ++
                  (fracPart (rest.dropWhile Char.isDigit)).2) := by
                rw [fracPart_append]
            _ = num ++ k :: r := by
                rw [heq, ← List.append_assoc, hnum, hk, hr]
        · simp at h
      · simp at h
  · simp at h

theorem matchPctAt_shape {s num r : Str}
    (h : matchPctAt s = some (num, r)) : s = num ++ '%' :: r := by
  simp only [matchPctAt] at h
  split at h
  · simp at h
  · split at h
    · rename_i r5 heq
      simp only [Option.some.injEq, Prod.mk.injEq] at h
      obtain ⟨hnum, hr⟩ := h
      calc s = s.takeWhile Char.isDigit ++ s.dropWhile Char.isDigit :=
            (List.takeWhile_append_dropWhile _ _).symm
        _ = s.takeWhile Char.isDigit ++
            ((fracPart (s.dropWhile Char.isDigit)).1 ++
              (fracPart (s.dropWhile Char.isDigit)).2) := by
            rw [fracPart_append]
        _ = num ++ '%' :: r := by
            rw [heq, ← List.append_assoc, hnum, hr]
    · simp at h

theorem curLabel_mem (ctx : Str) : curLabel ctx ∈ curLabels := by
  unfold curLabel curLabels
  split_ifs <;> simp

theorem pctLabel_mem (ctx : Str) : pctLabel ctx ∈ pctLabels := by
  unfold pctLabel pctLabels
  split_ifs <;> simp

theorem curScan_spec (desc : Str) : ∀ (fuel : Nat) (pre s : Str),
    (∃ a, a ++ s = desc) → ∀ e ∈ curScan fuel pre s,
      e.label ∈ curLabels ∧
      ∃ w k, e.value = w ++ [asciiUpper k] ∧ containsSub (w ++ [k]) desc = true := by
  intro fuel
  induction fuel with
  | zero =>
    intro pre s _ e he
    simp [curScan] at he
  | succ fuel ih =>
    intro pre s hsuf e he
    cases s with
    | nil => simp [curScan] at he
    | cons c rest =>
      simp only [curScan] at he
      split at he
      · rename_i num k r5 hm
        rcases List.mem_cons.mp he with rfl | he'
        · refine ⟨curLabel_mem _, c :: num, k, by simp, ?_⟩
          obtain ⟨a, ha⟩ := hsuf
          have hshape := matchCurAt_shape hm
          have hpref : isPrefOf ((c :: num) ++ [k]) (c :: rest) = true := by
            rw [hshape]
            have hre : (c : Char) :: (num ++ k :: r5) = ((c :: num) ++ [k]) ++ r5 := by
              simp
            rw [hre]
            exact isPrefOf_append _ _
          rw [← ha]
          exact containsSub_append_left a (containsSub_of_isPrefOf hpref)
        · apply ih _ r5 _ e he'
          obtain ⟨a, ha⟩ := hsuf
          refine ⟨a ++ (c :: num ++ [k]), ?_⟩
          rw [← ha, matchCurAt_shape hm]
          simp
      · apply ih _ rest _ e he
        obtain ⟨a, ha⟩ := hsuf
        exact ⟨a ++ [c], by rw [← ha]; simp⟩

theorem pctScan_spec (desc : Str) : ∀ (fuel : Nat) (pre s : Str),
    (∃ a, a ++ s = desc) → ∀ e ∈ pctScan fuel pre s,
      e.label ∈ pctLabels ∧ containsSub e.value desc = true := by
  intro fuel
  induction fuel with
  | zero =>
    intro pre s _ e he
    simp [pctScan] at he
  | succ fuel ih =>
    intro pre s hsuf e he
    cases s with
    | nil => simp [pctScan] at he
    | cons c rest =>
      simp only [pctScan] at he
      split at he
      · rename_i num r5 hm
        rcases List.mem_cons.mp he with rfl | he'
        · refine ⟨pctLabel_mem _, ?_⟩
          obtain ⟨a, ha⟩ := hsuf
          have hshape := matchPctAt_shape hm
          have hpref : isPrefOf (num ++ ['%']) (c :: rest) = true := by
            rw [hshape]
            have hre : num ++ '%' :: r5 = (num ++ ['%']) ++ r5 := by simp
            rw [hre]
            exact isPrefOf_append _ _
          rw [← ha]
          exact containsSub_append_left a (containsSub_of_isPrefOf hpref)
        · apply ih _ r5 _ e he'
          obtain ⟨a, ha⟩ := hsuf
          refine ⟨a ++ (num ++ ['%']), ?_⟩
          rw [← ha, matchPctAt_shape hm]
          simp
      · apply ih _ rest _ e he
        obtain ⟨a, ha⟩ := hsuf
        exact ⟨a ++ [c], by rw [← ha]; simp⟩

theorem asciiLower_digit {c d : Char} (hd : d.isDigit = true)
    (h : asciiLower c = d) : c = d := by
  unfold asciiLower at h
  split at h <;> first
    | exact h
    | (rw [← h] at hd; exact absurd hd (by decide))

theorem pref_lower_digits : ∀ {w l : Str}, isPrefOf w (lowerStr l) = true →
    w.all Char.isDigit = true → isPrefOf w l = true := by
  intro w
  induction w with
  | nil =>
    intro l _ _
    rfl
  | cons d ws ih =>
    intro l hp hall
    cases l with
    | nil => simp [lowerStr, isPrefOf] at hp
    | cons c r =>
      simp only [lowerStr, List.map_cons, isPrefOf, Bool.and_eq_true,
        decide_eq_true_eq] at hp ⊢
      obtain ⟨hd, hp'⟩ := hp
      simp only [List.all_cons, Bool.and_eq_true] at hall
      exact ⟨(asciiLower_digit hall.1 hd.symm).symm, ih hp' hall.2⟩

theorem containsSub_lower_digits : ∀ {l w : Str},
    containsSub w (lowerStr l) = true → w.all Char.isDigit = true →
    containsSub w l = true := by
  intro l
  induction l with
  | nil =>
    intro w h _
    simpa [lowerStr] using h
  | cons c r ih =>
    intro w h hall
    have h' : containsSub w (asciiLower c :: lowerStr r) = true := by
      simpa [lowerStr] using h
    have h2 : isPrefOf w (asciiLower c :: lowerStr r) = true ∨
        containsSub w (lowerStr r) = true := by
      simpa [containsSub] using h'
    rcases h2 with hp | hc
    · have : isPrefOf w (c :: r) = true := by
        have : isPrefOf w (lowerStr (c :: r)) = true := by
          simpa [lowerStr] using hp
        exact pref_lower_digits this hall
      simp [containsSub, this]
    · simp [containsSub, ih hc hall]

theorem tryDN_spec {d : Nat} {s w : Str} (h : tryDN d s = some w) :
    isPrefOf w s = true ∧ w.all Char.isDigit = true := by
  simp only [tryDN] at h
  split at h
  · split at h
    · rename_i hcond _
      simp only [Option.some.injEq] at h
      subst h
      exact ⟨take_pref s d, Bool.and_elim_right hcond⟩
    · simp at h
  · simp at h

theorem tryDigitsNoun_spec {s w : Str} (h : tryDigitsNoun s = some w) :
    isPrefOf w s = true ∧ w.all Char.isDigit = true := by
  simp only [tryDigitsNoun] at h
  split at h
  · rename_i w' h3
    simp only [Option.some.injEq] at h
    exact h ▸ tryDN_spec h3
  · split at h
    · rename_i w' h2
      simp only [Option.some.injEq] at h
      exact h ▸ tryDN_spec h2
    · exact tryDN_spec h

theorem tryGap_spec : ∀ (b : Nat) {s w : Str}, tryGap b s = some w →
    containsSub w s = true ∧ w.all Char.isDigit = true := by
  intro b
  induction b with
  | zero =>
    intro s w h
    obtain ⟨hp, ha⟩ := tryDigitsNoun_spec h
    exact ⟨containsSub_of_isPrefOf hp, ha⟩
  | succ b ih =>
    intro s w h
    simp only [tryGap] at h
    split at h
    · rename_i w' hdn
      simp only [Option.some.injEq] at h
      obtain ⟨hp, ha⟩ := tryDigitsNoun_spec hdn
      exact h ▸ ⟨containsSub_of_isPrefOf hp, ha⟩
    · cases s with
      | nil => simp at h
      | cons c r =>
        simp only at h
        split at h
        · simp at h
        · obtain ⟨hc, ha⟩ := ih h
          exact ⟨by simp [containsSub, hc], ha⟩

theorem tryTeamAt_spec {s w : Str} (h : tryTeamAt s = some w) :
    containsSub w s = true ∧ w.all Char.isDigit = true := by
  simp only [tryTeamAt] at h
  split at h
  · rename_i v hv
    obtain ⟨hc, ha⟩ := tryGap_spec 25 h
    refine ⟨?_, ha⟩
    have hres := containsSub_append_left (s.take v.length) hc
    rwa [List.take_append_drop] at hres
  · simp at h

theorem teamScan1_spec : ∀ {s w : Str}, teamScan1 s = some w →
    containsSub w s = true ∧ w.all Char.isDigit = true := by
  intro s
  induction s with
  | nil =>
    intro w h
    simp [teamScan1] at h
  | cons c r ih =>
    intro w h
    simp only [teamScan1] at h
    split at h
    · rename_i w' hat
      simp only [Option.some.injEq] at h
      obtain ⟨hc, ha⟩ := tryTeamAt_spec hat
      exact h ▸ ⟨hc, ha⟩
    · obtain ⟨hc, ha⟩ := ih h
      exact ⟨by simp [containsSub, hc], ha⟩

theorem teamScan2_spec : ∀ {s w : Str}, teamScan2 s = some w →
    containsSub w s = true ∧ w.all Char.isDigit = true := by
  intro s
  induction s with
  | nil =>
    intro w h
    simp [teamScan2] at h
  | cons c r ih =>
    intro w h
    simp only [teamScan2] at h
    split at h
    · split at h
      · obtain ⟨hc, ha⟩ := ih h
        exact ⟨by simp [containsSub, hc], ha⟩
      · simp only [Option.some.injEq] at h
        subst h
        constructor
        · have hp : isPrefOf ((((c :: r).drop 8).takeWhile Char.isDigit).take 3)
              ((c :: r).drop 8) = true :=
            isPrefOf_trans (take_pref _ 3) (takeWhile_pref _ _)
          have hres := containsSub_append_left ((c :: r).take 8)
            (containsSub_of_isPrefOf hp)
          rwa [List.take_append_drop] at hres
        · exact all_take (takeWhile_all _ _) 3
    · obtain ⟨hc, ha⟩ := ih h
      exact ⟨by simp [containsSub, hc], ha⟩

theorem countMatchAt_spec {nouns : List Str} {s w : Str}
    (h : countMatchAt nouns s = some w) :
    isPrefOf w s = true ∧ w.all Char.isDigit = true := by
  simp only [countMatchAt] at h
  split at h
  · simp at h
  · split at h
    · split at h
      · simp only [Option.some.injEq] at h
        subst h
        exact ⟨takeWhile_pref _ _, takeWhile_all _ _⟩
      · simp at h
    · simp at h

theorem countScan_spec {nouns : List Str} : ∀ {s w : Str},
    countScan nouns s = some w →
    containsSub w s = true ∧ w.all Char.isDigit = true := by
  intro s
  induction s with
  | nil =>
    intro w h
    simp [countScan] at h
  | cons c r ih =>
    intro w h
    simp only [countScan] at h
    split at h
    · rename_i w' hat
      simp only [Option.some.injEq] at h
      obtain ⟨hp, ha⟩ := countMatchAt_spec hat
      exact h ▸ ⟨containsSub_of_isPrefOf hp, ha⟩
    · obtain ⟨hc, ha⟩ := ih h
      exact ⟨by simp [containsSub, hc], ha⟩

theorem teamStat_spec {ld : Str} {p : Stat} (h : teamStat ld = some p) :
    p.label = str "Team Size" ∧ containsSub p.value ld = true ∧
      p.value.all Char.isDigit = true := by
  unfold teamStat at h
  split at h
  · rename_i w hw
    simp only [Option.some.injEq] at h
    obtain ⟨hc, ha⟩ := teamScan1_spec hw
    subst h
    exact ⟨rfl, hc, ha⟩
  · simp only [Option.map_eq_some'] at h
    obtain ⟨w, hw, rfl⟩ := h
    obtain ⟨hc, ha⟩ := teamScan2_spec hw
    exact ⟨rfl, hc, ha⟩

theorem clientStat_spec {ld : Str} {p : Stat} (h : clientStat ld = some p) :
    p.label = str "Clients" ∧ ∃ w, p.value = w ++ ['+'] ∧
      containsSub w ld = true ∧ w.all Char.isDigit = true := by
  unfold clientStat at h
  simp only [Option.map_eq_some'] at h
  obtain ⟨w, hw, rfl⟩ := h
  obtain ⟨hc, ha⟩ := countScan_spec hw
  exact ⟨rfl, w, rfl, hc, ha⟩

theorem projStat_spec {ld : Str} {p : Stat} (h : projStat ld = some p) :
    p.label = str "Projects" ∧ containsSub p.value ld = true ∧
      p.value.all Char.isDigit = true := by
  unfold projStat at h
  simp only [Option.map_eq_some'] at h
  obtain ⟨w, hw, rfl⟩ := h
  obtain ⟨hc, ha⟩ := countScan_spec hw
  exact ⟨rfl, hc, ha⟩

theorem mktStat_spec {ld : Str} {p : Stat} (h : mktStat ld = some p) :
    p.label = str "Markets" ∧ ∃ w, p.value = w ++ ['+'] ∧
      containsSub w ld = true ∧ w.all Char.isDigit = true := by
  unfold mktStat at h
  simp only [Option.map_eq_some'] at h
  obtain ⟨w, hw, rfl⟩ := h
  obtain ⟨hc, ha⟩ := countScan_spec hw
  exact ⟨rfl, w, rfl, hc, ha⟩

theorem rankOf_cur {lb : Str} (h : lb ∈ curLabels) : rankOf lb = 0 := by
  unfold rankOf
  rw [if_pos h]

theorem rankOf_pct {lb : Str} (h : lb ∈ pctLabels) : rankOf lb = 1 := by
  have hnc : lb ∉ curLabels := by
    fin_cases h <;> decide
  unfold rankOf
  rw [if_neg hnc, if_pos h]

theorem foldl_addStat_sorted (r : Nat) : ∀ (ps : List Stat) {init : List Stat},
    (∀ p ∈ ps, rankOf p.label = r) →
    (∀ e ∈ init, rankOf e.label ≤ r) →
    ((init.map fun e => rankOf e.label).Sorted (· ≤ ·)) →
    (∀ e ∈ List.foldl addStat init ps, rankOf e.label ≤ r) ∧
      (((List.foldl addStat init ps).map fun e => rankOf e.label).Sorted (· ≤ ·)) := by
  intro ps
  induction ps with
  | nil =>
    intro init _ hb hs
    exact ⟨hb, hs⟩
  | cons p ps ih =>
    intro init hps hb hs
    have hp : rankOf p.label = r := hps p (by simp)
    apply ih (fun q hq => hps q (by simp [hq]))
    · intro e he
      unfold addStat at he
      split at he
      · exact hb e he
      · rcases List.mem_append.mp he with h | h
        · exact hb e h
        · simp only [List.mem_cons, List.not_mem_nil, or_false] at h
          subst h
          omega
    · unfold addStat
      split
      · exact hs
      · rw [List.map_append]
        apply List.pairwise_append.mpr
        refine ⟨hs, by simp, ?_⟩
        intro x hx y hy
        simp only [List.map_cons, List.map_nil, List.mem_cons, List.not_mem_nil,
          or_false] at hy
        rw [List.mem_map] at hx
        obtain ⟨e, he, rfl⟩ := hx
        subst hy
        rw [hp]
        exact hb e he

theorem optStat_rank {o : Option Stat} {lb : Str} {r : Nat}
    (hlab : ∀ p, o = some p → p.label = lb) (hr : rankOf lb = r) :
    ∀ p ∈ o.toList, rankOf p.label = r := by
  intro p hp
  cases o with
  | none => simp at hp
  | some q =>
    simp only [Option.toList_some, List.mem_singleton] at hp
    subst hp
    rw [hlab p rfl, hr]

/-- C3 amended: the entries of `extractStats` are sorted by pattern-family
priority (currency 0, percentage 1, team size 2, clients 3, projects 4,
markets 5, families recovered from the labels): a higher-priority family's
entry always precedes a lower-priority one, even when its figure occurs
later in the text. -/
theorem c3_family_sorted (desc : Str) :
    ((extractStats desc).map fun e => rankOf e.label).Sorted (· ≤ ·) := by
  simp only [extractStats]
  have hcur : ∀ p ∈ currencyStats desc, rankOf p.label = 0 := by
    intro p hp
    exact rankOf_cur (curScan_spec desc _ _ _ ⟨[], rfl⟩ p hp).1
  have hpct : ∀ p ∈ pctStats desc, rankOf p.label = 1 := by
    intro p hp
    exact rankOf_pct (pctScan_spec desc _ _ _ ⟨[], rfl⟩ p hp).1
  have hteam : ∀ p ∈ (teamStat (lowerStr desc)).toList, rankOf p.label = 2 :=
    optStat_rank (fun p hp => (teamStat_spec hp).1) (by decide)
  have hcli : ∀ p ∈ (clientStat (lowerStr desc)).toList, rankOf p.label = 3 :=
    optStat_rank (fun p hp => (clientStat_spec hp).1) (by decide)
  have hproj : ∀ p ∈ (projStat (lowerStr desc)).toList, rankOf p.label = 4 :=
    optStat_rank (fun p hp => (projStat_spec hp).1) (by decide)
  have hmkt : ∀ p ∈ (mktStat (lowerStr desc)).toList, rankOf p.label = 5 :=
    optStat_rank (fun p hp => (mktStat_spec hp).1) (by decide)
  have s1 := @foldl_addStat_sorted 0 (currencyStats desc) [] hcur (by simp) (by simp)
  have s2 := foldl_addStat_sorted 1 (pctStats desc) hpct
    (fun e he => le_trans (s1.1 e he) (by omega)) s1.2
  have s3 := foldl_addStat_sorted 2 (teamStat (lowerStr desc)).toList hteam
    (fun e he => le_trans (s2.1 e he) (by omega)) s2.2
  have s4 := foldl_addStat_sorted 3 (clientStat (lowerStr desc)).toList hcli
    (fun e he => le_trans (s3.1 e he) (by omega)) s3.2
  have s5 := foldl_addStat_sorted 4 (projStat (lowerStr desc)).toList hproj
    (fun e he => le_trans (s4.1 e he) (by omega)) s4.2
  have s6 := foldl_addStat_sorted 5 (mktStat (lowerStr desc)).toList hmkt
    (fun e he => le_trans (s5.1 e he) (by omega)) s5.2
  exact s6.2

/-- C4 amended: every returned value is the literal matched figure up to
the two normalisations the code applies: the client/market families append
a trailing `+`, and the currency family upper-cases the magnitude
suffix. -/
theorem c4_value_near_literal (desc : Str) :
    ∀ e ∈ extractStats desc, NearLit e.value desc := by
  intro e he
  simp only [extractStats] at he
  rcases mem_foldl_addStat _ he with he | hm
  · rcases mem_foldl_addStat _ he with he | hm
    · rcases mem_foldl_addStat _ he with he | hm
      · rcases mem_foldl_addStat _ he with he | hm
        · rcases mem_foldl_addStat _ he with he | hm
          · rcases mem_foldl_addStat _ he with he | hm
            · simp at he
            · obtain ⟨_, w, k, hv, hc⟩ := curScan_spec desc _ _ _ ⟨[], rfl⟩ e hm
              exact Or.inr (Or.inr ⟨w, k, hv, hc⟩)
          · exact Or.inl (pctScan_spec desc _ _ _ ⟨[], rfl⟩ e hm).2
        · rw [Option.mem_toList] at hm
          obtain ⟨_, hc, ha⟩ := teamStat_spec hm
          exact Or.inl (containsSub_lower_digits hc ha)
      · rw [Option.mem_toList] at hm
        obtain ⟨_, w, hv, hc, ha⟩ := clientStat_spec hm
        exact Or.inr (Or.inl ⟨w, hv, containsSub_lower_digits hc ha⟩)
    · rw [Option.mem_toList] at hm
      obtain ⟨_, hc, ha⟩ := projStat_spec hm
      exact Or.inl (containsSub_lower_digits hc ha)
  · rw [Option.mem_toList] at hm
    obtain ⟨_, w, hv, hc, ha⟩ := mktStat_spec hm
    exact Or.inr (Or.inl ⟨w, hv, containsSub_lower_digits hc ha⟩)

/-- C4 amended witness: the percentage entry of the C2 description. -/
theorem c4_value_near_literal_witness : NearLit (str "35%") c2desc :=
  c4_value_near_literal c2desc ⟨str "35%", str "Revenue Growth"⟩ (by decide)
